import Mathlib

/-!
Verification development for the visage planar-path geometry engine
(`src/visage_graphics/path.h`, `src/visage_utils/clone_ptr.h`).

The source is shallowly embedded: coordinates are exact rationals (`ℚ`)
standing for the C++ `float` / `double` values, vectors become Lean lists,
and the mutating member functions of `visage::Path` become pure state
transformers on a `Path` record.  Types declared in
`visage_utils/space.h` (`BasePoint`, `Matrix`, `Transform`, `Bounds`) are
not part of the available sources; the few of their members this file
needs are modelled from the specification and flagged as such in their
doc comments.
-/

set_option maxRecDepth 4096

namespace visage

/-- Modelled from the spec: `BasePoint<T>` / `Point` / `DPoint` from
`visage_utils/space.h` (file not in the sources).  A 2D point with the
componentwise arithmetic the spec lists for the point primitives
(add/sub/scale/dot/cross and squared magnitude). -/
structure Point where
  x : ℚ
  y : ℚ
deriving DecidableEq, Repr

instance : Inhabited Point := ⟨⟨0, 0⟩⟩

/-- Modelled from the spec: componentwise point addition. -/
def Point.add (a b : Point) : Point := ⟨a.x + b.x, a.y + b.y⟩

/-- Modelled from the spec: componentwise point subtraction. -/
def Point.sub (a b : Point) : Point := ⟨a.x - b.x, a.y - b.y⟩

/-- Modelled from the spec: scaling a point by a scalar. -/
def Point.smul (q : ℚ) (a : Point) : Point := ⟨q * a.x, q * a.y⟩

instance : Add Point := ⟨Point.add⟩

instance : Sub Point := ⟨Point.sub⟩

instance : SMul ℚ Point := ⟨Point.smul⟩

/-- Modelled from the spec: dot product of the point primitives. -/
def Point.dot (a b : Point) : ℚ := a.x * b.x + a.y * b.y

/-- Modelled from the spec: cross product of the point primitives. -/
def Point.cross (a b : Point) : ℚ := a.x * b.y - a.y * b.x

/-- Modelled from the spec: `squareMagnitude()` of the point primitives,
the squared Euclidean length `x² + y²`. -/
def Point.squareMagnitude (a : Point) : ℚ := a.x * a.x + a.y * a.y

/-- The relative epsilon `kEpsilon = 1.0e-10` of `visage::orientation`
(`path.h` line 38). -/
def kOrientationEpsilon : ℚ := 1 / 10000000000

/-- `visage::orientation` (`path.h` lines 36–46): the signed
cross-product difference of the two direction vectors, snapped to `0`
when its magnitude is below `kEpsilon` times the absolute value of the
sum of the two cross-product terms. -/
def orientation (source target1 target2 : Point) : ℚ :=
  let delta1 := target1 - source
  let delta2 := target2 - source
  let l := delta2.y * delta1.x
  let r := delta2.x * delta1.y
  let sum := |l + r|
  let diff := l - r
  if |diff| ≥ kOrientationEpsilon * sum then diff else 0

/-- `visage::stableOrientation` (`path.h` lines 48–60): retries
`orientation` on the cyclic rotations of the inputs before giving up
with `0`. -/
def stableOrientation (source target1 target2 : Point) : ℚ :=
  let result := orientation source target1 target2
  if result ≠ 0 then result
  else
    let result := orientation target2 source target1
    if result ≠ 0 then result
    else orientation target1 target2 source

/-- The snap condition exactly as the words of claim C3 read: `0`
whenever the magnitude of the difference is smaller than the epsilon
times the (signed) sum of the two cross-product terms — without the
absolute value the source takes of that sum.  Declared only to be
compared against `orientation`. -/
def orientationClaimC3 (source target1 target2 : Point) : ℚ :=
  let delta1 := target1 - source
  let delta2 := target2 - source
  let l := delta2.y * delta1.x
  let r := delta2.x * delta1.y
  let diff := l - r
  if |diff| < kOrientationEpsilon * (l + r) then 0 else diff

/-- `TriangulationGraph::PointType` (`path.h` lines 813–818). -/
inductive PointType where
  | None
  | Begin
  | Continue
  | End
deriving DecidableEq, Repr

instance : Inhabited PointType := ⟨PointType.None⟩

/-- Modelled from the spec: `DPoint::compare` from
`visage_utils/space.h` (file not in the sources).  A three-way signed
comparison in the sweep order the spec gives for event processing,
"lexicographic y-then-x": negative when `a` comes first, zero exactly on
equal points. -/
def Point.compare (a b : Point) : ℚ :=
  if a.y ≠ b.y then a.y - b.y else a.x - b.x

/-- `TriangulationGraph::IndexData` (`path.h` lines 820–846): an entry
of the sorted sweep index. -/
structure IndexData where
  index : ℤ
  point : Point
  type : PointType
deriving DecidableEq, Repr

/-- `TriangulationGraph::IndexData::operator<` (`path.h` lines
829–845): `None` entries order after everything; otherwise order by the
point comparison, break point ties by type (`End` first, `Begin` last),
then by index. -/
def IndexData.ltb (a b : IndexData) : Bool :=
  if a.type ≠ b.type ∧ a.type = PointType.None then false
  else if a.type ≠ b.type ∧ b.type = PointType.None then true
  else
    let compare := a.point.compare b.point
    if compare ≠ 0 then decide (compare < 0)
    else if a.type ≠ b.type then decide (a.type = PointType.End ∨ b.type = PointType.Begin)
    else decide (a.index < b.index)

/-- `Path::FillRule` (`path.h` lines 274–278). -/
inductive FillRule where
  | NonZero
  | Positive
  | EvenOdd
deriving DecidableEq, Repr

/-- Modelled from the spec: `Matrix` from `visage_utils/space.h` (file
not in the sources) — the resolution matrix that "scales error
tolerance anisotropically", a 2×2 linear map applied to delta vectors. -/
structure Matrix where
  a : ℚ
  b : ℚ
  c : ℚ
  d : ℚ
deriving DecidableEq, Repr

/-- Modelled from the spec: application of the resolution matrix to a
vector, written `matrix * point` in the source. -/
def Matrix.apply (m : Matrix) (p : Point) : Point :=
  ⟨m.a * p.x + m.b * p.y, m.c * p.x + m.d * p.y⟩

instance : Inhabited Matrix := ⟨⟨1, 0, 0, 1⟩⟩

/-- Modelled from the spec: `Transform` from `visage_utils/space.h`
(file not in the sources) — an affine map (`scale/translate/rotate/
transform (affine)` in the public API), applied as `transform * point`. -/
structure Transform where
  a : ℚ
  b : ℚ
  c : ℚ
  d : ℚ
  tx : ℚ
  ty : ℚ
deriving DecidableEq, Repr

/-- Modelled from the spec: application of an affine transform to a
point. -/
def Transform.apply (t : Transform) (p : Point) : Point :=
  ⟨t.a * p.x + t.b * p.y + t.tx, t.c * p.x + t.d * p.y + t.ty⟩

instance : Inhabited Transform := ⟨⟨1, 0, 0, 1, 0, 0⟩⟩

/-- `Path::SubPath` (`path.h` lines 77–81): the points of one contour,
the parallel per-point scalar values, and the closed flag. -/
structure SubPath where
  points : List Point
  values : List ℚ
  closed : Bool
deriving DecidableEq, Repr

/-- A default-constructed `SubPath`, as produced by
`paths_.emplace_back()`. -/
def SubPath.empty : SubPath := ⟨[], [], false⟩

instance : Inhabited SubPath := ⟨SubPath.empty⟩

/-- The data fields of `Path::TriangulationGraph` (`path.h` lines
1103–1109).  The transient `scan_line_` member is itself freshly
allocated by the graph's copy constructor (`path.h` lines 850–856,
`std::make_unique<ScanLine>(*other.scan_line_)` followed by
`setGraph(this)`), so it never aliases between copies and its working
state is not part of the cloned contents modelled here. -/
structure TriangulationGraph where
  resolution_transform : Transform
  intersections_broken : Bool
  points : List Point
  sorted_indices : List IndexData
  prev_edge : List ℤ
  next_edge : List ℤ
deriving DecidableEq, Repr

instance : Inhabited TriangulationGraph := ⟨⟨default, false, [], [], [], []⟩⟩

/-- The state of a `visage::Path` (`path.h` lines 1181–1188), with the
`clone_ptr<TriangulationGraph>` cache collapsed to the presence or
absence of a cached graph value. -/
structure Path where
  resolution_matrix_ : Matrix
  paths_ : List SubPath
  triangulation_graph_ : Option TriangulationGraph
  fill_rule_ : FillRule
  smooth_control_point_ : Point
  last_point_ : Point
  current_value_ : ℚ
  error_tolerance_ : ℚ
deriving DecidableEq, Repr

/-- A default-constructed `Path` (`Path() = default` with the member
initializers of `path.h` lines 1181–1188). -/
def Path.init : Path :=
  { resolution_matrix_ := default
    paths_ := []
    triangulation_graph_ := none
    fill_rule_ := FillRule.EvenOdd
    smooth_control_point_ := ⟨0, 0⟩
    last_point_ := ⟨0, 0⟩
    current_value_ := 0
    error_tolerance_ := 1 / 10 }

instance : Inhabited Path := ⟨Path.init⟩

/-- The side effect of `Path::currentPath()` (`path.h` lines
1157–1161): if there is no sub-path yet or the last one is closed, a
fresh default sub-path is appended; the last sub-path is then the
"current" one. -/
def Path.ensureCurrent (st : Path) : Path :=
  match st.paths_.getLast? with
  | none => { st with paths_ := st.paths_ ++ [SubPath.empty] }
  | some b =>
    if b.closed then { st with paths_ := st.paths_ ++ [SubPath.empty] } else st

/-- `Path::startNewPath()` (`path.h` lines 1149–1155): appends a fresh
sub-path unless the last one is still empty, and resets the smooth
control point and the current value. -/
def Path.startNewPath (st : Path) : Path :=
  let st :=
    if st.paths_ = [] ∨ (st.paths_.getLastD SubPath.empty).points ≠ [] then
      { st with paths_ := st.paths_ ++ [SubPath.empty] }
    else st
  { st with smooth_control_point_ := ⟨0, 0⟩, current_value_ := 0 }

/-- `Path::addPoint` (`path.h` lines 1163–1171): a duplicate of the
current sub-path's last point is dropped; otherwise the cached
triangulation graph is discarded and the point is appended together
with the current per-point value. -/
def Path.addPoint (st : Path) (point : Point) : Path :=
  let st1 := st.ensureCurrent
  let back := st1.paths_.getLastD SubPath.empty
  if back.points ≠ [] ∧ point = back.points.getLastD ⟨0, 0⟩ then st1
  else
    { st1 with
      triangulation_graph_ := none
      last_point_ := point
      paths_ := st1.paths_.dropLast ++
        [{ back with
            points := back.points ++ [point]
            values := back.values ++ [st1.current_value_] }] }

/-- `Path::moveTo` (`path.h` lines 360–369): starts a new sub-path when
the current one has points, then updates the pen position. -/
def Path.moveTo (st : Path) (point : Point) (relative : Bool) : Path :=
  let st :=
    if st.paths_ ≠ [] ∧ (st.paths_.getLastD SubPath.empty).points ≠ [] then
      st.startNewPath
    else st
  let point := if relative then point + st.last_point_ else point
  { st with last_point_ := point, smooth_control_point_ := ⟨0, 0⟩ }

/-- `Path::lineTo` (`path.h` lines 377–386): seeds the current sub-path
with the pen position when it is empty, then appends the target point. -/
def Path.lineTo (st : Path) (point : Point) (relative : Bool) : Path :=
  let st1 := st.ensureCurrent
  let st2 :=
    if (st1.paths_.getLastD SubPath.empty).points = [] then st1.addPoint st1.last_point_
    else st1
  let point := if relative then point + st2.last_point_ else point
  { st2.addPoint point with smooth_control_point_ := ⟨0, 0⟩ }

/-- The squared-distance epsilon `kCloseEpsilon = 0.000001f` of
`Path::close` (`path.h` line 417). -/
def kCloseEpsilon : ℚ := 1 / 1000000

/-- `Path::close` (`path.h` lines 416–430): no-op without points;
otherwise snap the last point onto the first when they are within
`kCloseEpsilon` squared distance, or append a copy of the first point
when they differ, and mark the current sub-path closed. -/
def Path.close (st : Path) : Path :=
  match st.paths_.getLast? with
  | none => st
  | some back =>
    if back.points = [] then st
    else
      let front := back.points.headD ⟨0, 0⟩
      let last := back.points.getLastD ⟨0, 0⟩
      let st1 :=
        if (front - last).squareMagnitude < kCloseEpsilon then
          { st with
            paths_ := st.paths_.dropLast ++
              [{ back with points := back.points.dropLast ++ [front] }]
            last_point_ := front }
        else if front ≠ last then st.addPoint front
        else st
      let st2 := st1.ensureCurrent
      { st2 with
        paths_ := st2.paths_.dropLast ++
          [{ st2.paths_.getLastD SubPath.empty with closed := true }] }

/-- `Path::clear` (`path.h` lines 541–545): drops all sub-paths, zeroes
the pen position and discards the cached triangulation graph. -/
def Path.clear (st : Path) : Path :=
  { st with paths_ := [], last_point_ := ⟨0, 0⟩, triangulation_graph_ := none }

/-- `Path::setFillRule` (`path.h` line 702): stores the fill rule and
touches nothing else — in particular not the cached graph. -/
def Path.setFillRule (st : Path) (fill_rule : FillRule) : Path :=
  { st with fill_rule_ := fill_rule }

/-- `Path::setErrorTolerance` (`path.h` lines 712–716): stores the
tolerance only when it is positive (the debug-only `VISAGE_ASSERT` has
no release effect); non-positive values are ignored. -/
def Path.setErrorTolerance (st : Path) (tolerance : ℚ) : Path :=
  if tolerance > 0 then { st with error_tolerance_ := tolerance } else st

/-- `Path::reverse` (`path.h` lines 692–697): reverses the point and
value lists of every sub-path. -/
def Path.reverse (st : Path) : Path :=
  { st with
    paths_ := st.paths_.map fun sp =>
      { sp with points := sp.points.reverse, values := sp.values.reverse } }

/-- Shared shape of `Path::scale/translate/rotate/transform` (`path.h`
lines 630–684): apply a point map to every point of every sub-path. -/
def Path.mapPoints (st : Path) (f : Point → Point) : Path :=
  { st with
    paths_ := st.paths_.map fun sp => { sp with points := sp.points.map f } }

/-- `Path::scale` (`path.h` lines 630–635). -/
def Path.scale (st : Path) (mult : ℚ) : Path :=
  st.mapPoints fun p => mult • p

/-- `Path::translate` (`path.h` lines 645–650). -/
def Path.translate (st : Path) (offset : Point) : Path :=
  st.mapPoints fun p => p + offset

/-- `Path::rotate` (`path.h` lines 654–665), parametrized by the values
`c = cosf(angle)` and `s = sinf(angle)` the source computes, so the
rotation matrix rows are `(c, s)` and `(-s, c)`. -/
def Path.rotate (st : Path) (c s : ℚ) : Path :=
  st.mapPoints fun p => ⟨c * p.x + s * p.y, -s * p.x + c * p.y⟩

/-- `Path::transform` (`path.h` lines 679–684): applies an affine
`Transform` to every point. -/
def Path.transformBy (st : Path) (t : Transform) : Path :=
  st.mapPoints t.apply

/-- `Path::deltaFromLine` (`path.h` lines 1112–1122): vector from the
closest point of the segment `line_from`–`line_to` to `point` (the
parameter `t` is clamped to `[0, 1]` as by `std::clamp`). -/
def deltaFromLine (point line_from line_to : Point) : Point :=
  if line_from = line_to then point - line_from
  else
    let line_delta := line_to - line_from
    let point_delta := point - line_from
    let t := point_delta.dot line_delta / line_delta.dot line_delta
    let t := if t < 0 then 0 else if 1 < t then 1 else t
    let closest_point := line_from + t • line_delta
    point - closest_point

/-- The sequence of `addPoint` arguments `Path::recurseBezierTo`
(`path.h` lines 1124–1145) emits, with an explicit recursion-depth fuel
standing for the C++ call stack: `none` means the fuel ran out before
the recursion bottomed out, `some pts` that the recursion terminates
emitting exactly `pts`.  When both resolution-matrix-transformed
distances from the control points to the chord are within tolerance the
endpoint alone is emitted; otherwise the curve is split at the de
Casteljau midpoint construction and the two halves are emitted in
order. -/
def recurseBezierEmit (m : Matrix) (error_tolerance : ℚ) (fuel : ℕ)
    (start control1 control2 toP : Point) : Option (List Point) :=
  match fuel with
  | 0 => none
  | Nat.succ fuel =>
    let error_squared := error_tolerance * error_tolerance
    let delta1 := m.apply (deltaFromLine control1 start toP)
    let delta2 := m.apply (deltaFromLine control2 start toP)
    if delta1.squareMagnitude ≤ error_squared ∧ delta2.squareMagnitude ≤ error_squared then
      some [toP]
    else
      let mid1 := (1 / 2 : ℚ) • (start + control1)
      let mid2 := (1 / 2 : ℚ) • (control1 + control2)
      let mid3 := (1 / 2 : ℚ) • (control2 + toP)
      let midmid1 := (1 / 2 : ℚ) • (mid1 + mid2)
      let midmid2 := (1 / 2 : ℚ) • (mid2 + mid3)
      let break_point := (1 / 2 : ℚ) • (midmid1 + midmid2)
      (recurseBezierEmit m error_tolerance fuel start mid1 midmid1 break_point).bind fun left =>
        (recurseBezierEmit m error_tolerance fuel break_point midmid2 mid3 toP).map
          fun right => left ++ right

/-- `Path::recurseBezierTo` as a state transformer: fold `addPoint`
over the emitted points. -/
def Path.recurseBezierTo (st : Path) (fuel : ℕ) (start control1 control2 toP : Point) :
    Option Path :=
  (recurseBezierEmit st.resolution_matrix_ st.error_tolerance_ fuel start control1 control2 toP).map
    fun pts => pts.foldl Path.addPoint st

/-- `Path::bezierTo` (`path.h` lines 478–491): seeds the current
sub-path with the pen position when it is empty, then flattens the
cubic and records the reflected smooth control point. -/
def Path.bezierTo (st : Path) (control1 control2 toPoint : Point) (relative : Bool)
    (fuel : ℕ) : Option Path :=
  let st1 := st.ensureCurrent
  let st2 :=
    if (st1.paths_.getLastD SubPath.empty).points = [] then st1.addPoint st1.last_point_
    else st1
  let start := st2.last_point_
  let control1 := if relative then control1 + start else control1
  let control2 := if relative then control2 + start else control2
  let toPoint := if relative then toPoint + start else toPoint
  (st2.recurseBezierTo fuel start control1 control2 toPoint).map
    fun st3 => { st3 with smooth_control_point_ := toPoint + (toPoint - control2) }

/-- `Path::quadraticTo` (`path.h` lines 437–451): promotes the
quadratic to cubic form by the 2/3 rule and flattens it. -/
def Path.quadraticTo (st : Path) (control toPoint : Point) (relative : Bool)
    (fuel : ℕ) : Option Path :=
  let st1 := st.ensureCurrent
  let st2 :=
    if (st1.paths_.getLastD SubPath.empty).points = [] then st1.addPoint st1.last_point_
    else st1
  let start := st2.last_point_
  let control := if relative then control + start else control
  let toPoint := if relative then toPoint + start else toPoint
  let control1 := start + (2 / 3 : ℚ) • (control - start)
  let control2 := toPoint + (2 / 3 : ℚ) • (control - toPoint)
  (st2.recurseBezierTo fuel start control1 control2 toPoint).map
    fun st3 => { st3 with smooth_control_point_ := toPoint + (toPoint - control) }

/-- Modelled from the spec: `Bounds` from `visage_utils/space.h` (file
not in the sources) — an axis-aligned rectangle given as x, y, width,
height, the return type of `boundingBox()`. -/
structure Bounds where
  x : ℚ
  y : ℚ
  width : ℚ
  height : ℚ
deriving DecidableEq, Repr

/-- The exact value of `std::numeric_limits<float>::max()`, the
sentinel `Path::boundingBox` starts its minima from (its maxima start
from `lowest() = -max()`). -/
def fltMax : ℚ := 340282346638528859811704183484516925440

/-- `Path::boundingBox` (`path.h` lines 721–737): running min/max over
every point of every sub-path starting from the float sentinels; when
the sentinels survive (no points) the zero bounds are returned. -/
def Path.boundingBox (st : Path) : Bounds :=
  let acc := st.paths_.foldl
    (fun acc sp =>
      sp.points.foldl
        (fun acc point =>
          (min acc.1 point.x, min acc.2.1 point.y,
            max acc.2.2.1 point.x, max acc.2.2.2 point.y))
        acc)
    (fltMax, fltMax, -fltMax, -fltMax)
  if acc.1 > acc.2.2.1 ∨ acc.2.1 > acc.2.2.2 then ⟨0, 0, 0, 0⟩
  else ⟨acc.1, acc.2.1, acc.2.2.1 - acc.1, acc.2.2.2 - acc.2.1⟩

/-- A sample cached graph, used by concrete counterexample states. -/
def sampleGraph : TriangulationGraph := ⟨default, true, [⟨0, 0⟩], [], [0], [0]⟩

/-- A concrete path state holding a cached graph and an open current
sub-path, for exercising the cache-invalidation behaviour. -/
def cachedSquare : Path :=
  { Path.init with
    paths_ := [⟨[⟨0, 0⟩, ⟨1, 0⟩, ⟨1, 1⟩], [0, 0, 0], false⟩]
    triangulation_graph_ := some sampleGraph }

/-- A concrete path state holding a cached graph whose current
sub-path's endpoints are distinct but within `kCloseEpsilon` squared
distance of each other, so `close()` takes its snap branch. -/
def cachedNearClosed : Path :=
  { Path.init with
    paths_ := [⟨[⟨0, 0⟩, ⟨1, 0⟩, ⟨0, 1 / 2000⟩], [0, 0, 0], false⟩]
    triangulation_graph_ := some sampleGraph }

/-- `clone_ptr<TriangulationGraph>` modelled against an explicit heap:
the store lists the allocated graphs and a handle is an index into it.
The copy constructor (`clone_ptr.h` lines 43–49, and identically
`operator=` lines 45–49) allocates a fresh cell holding a copy of the
pointee — `std::make_unique<T>(*other.p_)` — or yields the null handle
when the source handle is null. -/
def clonePtrCopy (store : List TriangulationGraph) (p : Option ℕ) :
    List TriangulationGraph × Option ℕ :=
  match p with
  | none => (store, none)
  | some i => (store ++ [store.getD i default], some store.length)

/-- `Path` with its `clone_ptr` cache kept as a heap handle, for the
copy semantics of `Path(const Path&) = default` (`path.h` line 310):
all members copy by value, and the `triangulation_graph_` member copies
through `clone_ptr`'s deep-cloning copy constructor. -/
structure HeapPath where
  paths_ : List SubPath
  triangulation_graph_ : Option ℕ
  fill_rule_ : FillRule
deriving DecidableEq, Repr

/-- The compiler-generated `Path` copy (`path.h` lines 310–311) over
the explicit heap: member-wise copy with `clonePtrCopy` on the cache
handle. -/
def HeapPath.copy (store : List TriangulationGraph) (p : HeapPath) :
    List TriangulationGraph × HeapPath :=
  let r := clonePtrCopy store p.triangulation_graph_
  (r.1, { p with triangulation_graph_ := r.2 })

/-- The `SubPath` invariant of the data model: the per-point values
stay parallel to the points, and a closed sub-path has coincident first
and last points. -/
def SubPath.Inv (sp : SubPath) : Prop :=
  sp.values.length = sp.points.length ∧
    (sp.closed = true → sp.points.headD ⟨0, 0⟩ = sp.points.getLastD ⟨0, 0⟩)

/-- The `Path` invariant: every sub-path satisfies `SubPath.Inv`. -/
def Path.Inv (st : Path) : Prop := ∀ sp ∈ st.paths_, sp.Inv

/-- A concrete open path used to witness the `close()` specification:
one sub-path `(0,0) -> (2,0) -> (2,2)` with distant endpoints. -/
def closeWitnessPath : Path :=
  { Path.init with paths_ := [⟨[⟨0, 0⟩, ⟨2, 0⟩, ⟨2, 2⟩], [0, 0, 0], false⟩] }

theorem Point.sub_def (a b : Point) : a - b = ⟨a.x - b.x, a.y - b.y⟩ := rfl

theorem Point.add_def (a b : Point) : a + b = ⟨a.x + b.x, a.y + b.y⟩ := rfl

theorem Point.smul_def (q : ℚ) (a : Point) : q • a = ⟨q * a.x, q * a.y⟩ := rfl

/-- C3, counterexample.  At `source = (0,0)`, `target1 = (1,1)`,
`target2 = (-1 - 5·10⁻¹², -1 + 5·10⁻¹²)` the two cross-product terms sum
to `-2`, so the claim's literal condition (epsilon times the signed sum)
is never met and the claim predicts the nonzero difference `10⁻¹¹`,
while the source compares against epsilon times the absolute value of
the sum and snaps to `0`. -/
theorem orientation_signed_sum_cex :
    orientation ⟨0, 0⟩ ⟨1, 1⟩
        ⟨-1 - 1 / 200000000000, -1 + 1 / 200000000000⟩ = 0 ∧
      orientationClaimC3 ⟨0, 0⟩ ⟨1, 1⟩
        ⟨-1 - 1 / 200000000000, -1 + 1 / 200000000000⟩ = 1 / 100000000000 := by
  constructor <;>
    norm_num [orientation, orientationClaimC3, kOrientationEpsilon, Point.sub_def, abs]

/-- C3, amended.  `orientation source target1 target2` returns the
signed cross-product difference `l - r` of the two cross-product terms
`l = delta2.y·delta1.x` and `r = delta2.x·delta1.y`, except that it
returns exactly `0` whenever the magnitude of that difference is smaller
than `10⁻¹⁰` times the absolute value of the sum `l + r` of the two
terms. -/
theorem orientation_snaps_on_abs_sum (source target1 target2 : Point) :
    orientation source target1 target2 =
      if |(target2 - source).y * (target1 - source).x -
            (target2 - source).x * (target1 - source).y| <
          kOrientationEpsilon *
            |(target2 - source).y * (target1 - source).x +
              (target2 - source).x * (target1 - source).y| then 0
      else (target2 - source).y * (target1 - source).x -
            (target2 - source).x * (target1 - source).y := by
  simp only [orientation]
  split_ifs with h1 h2 h3
  · exact absurd h2 (not_lt.mpr h1)
  · rfl
  · rfl
  · exact absurd (lt_of_not_ge h1) h3

/-- C4, confirmed.  In the sweep-event ordering `IndexData::operator<`,
whenever two entries have equal points, an `End` entry orders strictly
before a `Begin` entry: `End < Begin` holds and `Begin < End` fails, so
`End` events at a shared point are processed before `Begin` events. -/
theorem indexData_end_before_begin (a b : IndexData) (hp : a.point = b.point)
    (ha : a.type = PointType.End) (hb : b.type = PointType.Begin) :
    IndexData.ltb a b = true ∧ IndexData.ltb b a = false := by
  have hcmp : Point.compare a.point b.point = 0 := by
    rw [hp]; simp [Point.compare]
  have hcmp' : Point.compare b.point a.point = 0 := by
    rw [hp]; simp [Point.compare]
  constructor
  · simp [IndexData.ltb, ha, hb, hcmp]
  · simp [IndexData.ltb, ha, hb, hcmp']

/-- C4, witness: the theorem applied to two concrete entries sharing
the point `(3, 4)`. -/
theorem indexData_end_before_begin_witness :
    IndexData.ltb ⟨7, ⟨3, 4⟩, PointType.End⟩ ⟨2, ⟨3, 4⟩, PointType.Begin⟩ = true ∧
      IndexData.ltb ⟨2, ⟨3, 4⟩, PointType.Begin⟩ ⟨7, ⟨3, 4⟩, PointType.End⟩ = false :=
  indexData_end_before_begin ⟨7, ⟨3, 4⟩, PointType.End⟩ ⟨2, ⟨3, 4⟩, PointType.Begin⟩
    rfl rfl rfl

/-- C10, confirmed.  On a `Path` containing no points — no sub-paths at
all, or only sub-paths with empty point lists — `boundingBox()` returns
the zero bounds `(0, 0, 0, 0)`: the sentinel minima/maxima survive the
scan, the `min_x > max_x` guard fires, and the sentinels are never
exposed. -/
theorem boundingBox_no_points (st : Path)
    (h : ∀ sp ∈ st.paths_, sp.points = []) :
    st.boundingBox = ⟨0, 0, 0, 0⟩ := by
  have hfold : ∀ l : List SubPath, (∀ sp ∈ l, sp.points = []) →
      l.foldl
        (fun acc sp =>
          sp.points.foldl
            (fun acc point =>
              (min acc.1 point.x, min acc.2.1 point.y,
                max acc.2.2.1 point.x, max acc.2.2.2 point.y))
            acc)
        (fltMax, fltMax, -fltMax, -fltMax) = (fltMax, fltMax, -fltMax, -fltMax) := by
    intro l
    induction l with
    | nil => intro _; rfl
    | cons sp rest ih =>
      intro hl
      have hsp : sp.points = [] := hl sp (List.mem_cons_self sp rest)
      have hrest := ih fun sp2 hmem => hl sp2 (List.mem_cons_of_mem _ hmem)
      simpa [hsp] using hrest
  rw [Path.boundingBox]
  rw [hfold st.paths_ h]
  norm_num [fltMax]

/-- C10, witness: the theorem applied to a path holding one empty
sub-path. -/
theorem boundingBox_no_points_witness :
    Path.boundingBox { Path.init with paths_ := [SubPath.empty] } = ⟨0, 0, 0, 0⟩ :=
  boundingBox_no_points { Path.init with paths_ := [SubPath.empty] }
    (by intro sp hmem; simp at hmem; simp [hmem, SubPath.empty])

/-- C9, confirmed.  `setErrorTolerance t` with `t ≤ 0` is a no-op that
leaves the whole state (in particular `errorTolerance()`) unchanged —
the debug assertion aside, nothing is thrown or changed — and with
`t > 0` it makes `errorTolerance()` return `t`. -/
theorem setErrorTolerance_spec (st : Path) (t : ℚ) :
    (t ≤ 0 → st.setErrorTolerance t = st) ∧
      (0 < t → (st.setErrorTolerance t).error_tolerance_ = t) := by
  constructor
  · intro h
    simp [Path.setErrorTolerance, not_lt.mpr h]
  · intro h
    simp [Path.setErrorTolerance, h]

/-- C9, witness: the theorem applied at tolerances `-1` and `1/2`. -/
theorem setErrorTolerance_spec_witness :
    Path.init.setErrorTolerance (-1) = Path.init ∧
      (Path.init.setErrorTolerance (1 / 2)).error_tolerance_ = 1 / 2 :=
  ⟨(setErrorTolerance_spec Path.init (-1)).1 (by norm_num),
    (setErrorTolerance_spec Path.init (1 / 2)).2 (by norm_num)⟩

theorem lastD_concat {α : Type} (l : List α) (a d : α) : (l ++ [a]).getLastD d = a := by
  simp [List.getLastD_eq_getLast?, List.getLast?_concat]

theorem lastD_of_getLast? {α : Type} {l : List α} {a : α} (d : α)
    (h : l.getLast? = some a) : l.getLastD d = a := by
  simp [List.getLastD_eq_getLast?, h]

theorem headD_concat_of_ne_nil {α : Type} (l : List α) (a d : α) (h : l ≠ []) :
    (l ++ [a]).headD d = l.headD d := by
  cases l with
  | nil => exact absurd rfl h
  | cons x rest => rfl

theorem headD_dropLast_concat_headD {α : Type} (l : List α) (d : α) (h : l ≠ []) :
    (l.dropLast ++ [l.headD d]).headD d = l.headD d := by
  cases l with
  | nil => exact absurd rfl h
  | cons x rest =>
    cases rest with
    | nil => rfl
    | cons y r2 => simp [List.dropLast]

theorem length_dropLast_concat {α : Type} (l : List α) (a : α) (h : l ≠ []) :
    (l.dropLast ++ [a]).length = l.length := by
  have h1 : 1 ≤ l.length := List.length_pos.mpr h
  simp [List.length_dropLast]
  omega

theorem getLast?_ne_nil_decomp {α : Type} {l : List α} {b : α} (h : l.getLast? = some b) :
    l.dropLast ++ [b] = l := by
  have hne : l ≠ [] := by
    intro hn
    subst hn
    simp at h
  have hb : l.getLast hne = b := by
    have := List.getLast?_eq_getLast l hne
    rw [this] at h
    exact Option.some.inj h
  rw [← hb]
  exact List.dropLast_append_getLast hne

theorem subPathInv_closed_set {sp : SubPath} (h : sp.Inv)
    (hcoin : sp.points.headD ⟨0, 0⟩ = sp.points.getLastD ⟨0, 0⟩) :
    SubPath.Inv { sp with closed := true } :=
  ⟨h.1, fun _ => hcoin⟩

theorem subPathInv_empty : SubPath.empty.Inv :=
  ⟨rfl, fun h => nomatch h⟩

theorem ensureCurrent_cache (st : Path) :
    st.ensureCurrent.triangulation_graph_ = st.triangulation_graph_ := by
  cases hb : st.paths_.getLast? with
  | none => simp [Path.ensureCurrent, hb]
  | some b => by_cases hc : b.closed <;> simp [Path.ensureCurrent, hb, hc]

theorem ensureCurrent_back (st : Path) :
    ∃ b, st.ensureCurrent.paths_.getLast? = some b ∧ b.closed = false ∧
      st.ensureCurrent.paths_.getLastD SubPath.empty = b := by
  cases hb : st.paths_.getLast? with
  | none =>
    refine ⟨SubPath.empty, ?_, rfl, ?_⟩ <;>
      simp [Path.ensureCurrent, hb, List.getLast?_concat, lastD_concat]
  | some b =>
    by_cases hc : b.closed
    · refine ⟨SubPath.empty, ?_, rfl, ?_⟩ <;>
        simp [Path.ensureCurrent, hb, hc, List.getLast?_concat, lastD_concat]
    · refine ⟨b, ?_, by simpa using hc, ?_⟩ <;>
        simp [Path.ensureCurrent, hb, hc, lastD_of_getLast? SubPath.empty hb]

theorem ensureCurrent_idem (st : Path) :
    st.ensureCurrent.ensureCurrent = st.ensureCurrent := by
  obtain ⟨b, h1, h2, _⟩ := ensureCurrent_back st
  generalize hE : st.ensureCurrent = E at h1 ⊢
  simp [Path.ensureCurrent, h1, h2]

/-- Unfolding of `Path::close` on a state whose sub-path list ends in a
sub-path `b` with points. -/
theorem close_eq_of_concat (st : Path) (l : List SubPath) (b : SubPath)
    (hl : st.paths_ = l ++ [b]) (hpts : b.points ≠ []) :
    st.close =
      (let front := b.points.headD ⟨0, 0⟩
       let last := b.points.getLastD ⟨0, 0⟩
       let st1 :=
         if (front - last).squareMagnitude < kCloseEpsilon then
           { st with
             paths_ := l ++ [{ b with points := b.points.dropLast ++ [front] }]
             last_point_ := front }
         else if front ≠ last then st.addPoint front
         else st
       let st2 := st1.ensureCurrent
       { st2 with
         paths_ := st2.paths_.dropLast ++
           [{ st2.paths_.getLastD SubPath.empty with closed := true }] }) := by
  unfold Path.close
  rw [hl, List.getLast?_concat]
  simp only [List.dropLast_concat, if_neg (by simpa using hpts)]

theorem addPoint_cache_of_append (st : Path) (p : Point)
    (h : (st.ensureCurrent.paths_.getLastD SubPath.empty).points = [] ∨
      p ≠ (st.ensureCurrent.paths_.getLastD SubPath.empty).points.getLastD ⟨0, 0⟩) :
    (st.addPoint p).triangulation_graph_ = none := by
  have hcond : ¬((st.ensureCurrent.paths_.getLastD SubPath.empty).points ≠ [] ∧
      p = (st.ensureCurrent.paths_.getLastD SubPath.empty).points.getLastD ⟨0, 0⟩) := by
    rintro ⟨hne2, heq⟩
    rcases h with h | h
    · exact hne2 h
    · exact h heq
  simp only [Path.addPoint]
  rw [if_neg hcond]

theorem addPoint_cache_none (st : Path) (p : Point)
    (h : st.triangulation_graph_ = none) :
    (st.addPoint p).triangulation_graph_ = none := by
  simp only [Path.addPoint]
  split
  · rw [ensureCurrent_cache]
    exact h
  · rfl

/-- C1, counterexample.  With a cached triangulation graph present,
`setFillRule` (`path.h` line 702) leaves the cached handle in place
even though it changes the fill rule; `moveTo` does too; and `close()`'s
snap branch rewrites the sub-path's last point without discarding the
cache.  Each is an explicit edit the claim says discards the cached
graph handle. -/
theorem mutation_cache_claim_cex :
    (cachedSquare.setFillRule FillRule.NonZero).triangulation_graph_ = some sampleGraph ∧
      (cachedSquare.moveTo ⟨5, 5⟩ false).triangulation_graph_ = some sampleGraph ∧
      cachedNearClosed.close.triangulation_graph_ = some sampleGraph := by
  refine ⟨rfl, ?_, ?_⟩
  · simp [Path.moveTo, Path.startNewPath, cachedSquare, Path.init, SubPath.empty]
  · simp only [Path.close, cachedNearClosed, Path.init]
    norm_num [Path.ensureCurrent, Point.sub_def, Point.squareMagnitude, kCloseEpsilon,
      SubPath.empty]
    simp

/-- C1, amended.  The cached graph handle is discarded exactly at
`addPoint`'s appending branch and at `clear()`: `addPoint` (hence
`lineTo`, the curve calls and `close()`'s appending branch) resets the
cache whenever a point is actually appended, i.e. the current sub-path
is empty or the new point differs from its last point, and `clear()`
always resets it; `setFillRule` and `moveTo` never touch the cached
handle, and `close()`'s snap branch leaves it in place as well. -/
theorem cache_invalidation_amended (st : Path) (point : Point) (fill_rule : FillRule)
    (relative : Bool) :
    ((st.ensureCurrent.paths_.getLastD SubPath.empty).points = [] ∨
        point ≠ (st.ensureCurrent.paths_.getLastD SubPath.empty).points.getLastD ⟨0, 0⟩ →
      (st.addPoint point).triangulation_graph_ = none) ∧
    st.clear.triangulation_graph_ = none ∧
    ((st.ensureCurrent.paths_.getLastD SubPath.empty).points = [] ∨
        point ≠ (st.ensureCurrent.paths_.getLastD SubPath.empty).points.getLastD ⟨0, 0⟩ →
      (st.lineTo point false).triangulation_graph_ = none) ∧
    (¬((st.paths_.getLastD SubPath.empty).points.headD ⟨0, 0⟩ -
          (st.paths_.getLastD SubPath.empty).points.getLastD ⟨0, 0⟩).squareMagnitude <
        kCloseEpsilon →
      (st.paths_.getLastD SubPath.empty).points.headD ⟨0, 0⟩ ≠
        (st.paths_.getLastD SubPath.empty).points.getLastD ⟨0, 0⟩ →
      st.paths_ ≠ [] →
      (st.paths_.getLastD SubPath.empty).points ≠ [] →
      st.close.triangulation_graph_ = none) ∧
    (st.setFillRule fill_rule).triangulation_graph_ = st.triangulation_graph_ ∧
    (st.moveTo point relative).triangulation_graph_ = st.triangulation_graph_ := by
  refine ⟨fun h => addPoint_cache_of_append st point h, rfl, ?_, ?_, rfl, ?_⟩
  · intro h
    unfold Path.lineTo
    rcases hb : (st.ensureCurrent.paths_.getLastD SubPath.empty).points with _ | ⟨q, qs⟩
    · simp only [hb, if_pos rfl]
      refine addPoint_cache_none _ _ ?_
      refine addPoint_cache_of_append _ _ ?_
      rw [ensureCurrent_idem]
      exact Or.inl hb
    · have hne : (st.ensureCurrent.paths_.getLastD SubPath.empty).points ≠ [] := by
        rw [hb]; simp
      rcases h with h | h
      · exact absurd h hne
      · simp only [if_neg (by rw [hb]; simp : ¬(st.ensureCurrent.paths_.getLastD
          SubPath.empty).points = [])]
        refine addPoint_cache_of_append _ _ ?_
        rw [ensureCurrent_idem]
        exact Or.inr h
  · intro hfar hne hpaths hpts
    obtain hnil | ⟨l, b, hl⟩ := List.eq_nil_or_concat' st.paths_
    · exact absurd hnil hpaths
    have hback : st.paths_.getLastD SubPath.empty = b := by
      rw [hl, lastD_concat]
    rw [hback] at hfar hne hpts
    rw [close_eq_of_concat st l b hl hpts]
    simp only [if_neg hfar, if_pos hne]
    rw [ensureCurrent_cache]
    apply addPoint_cache_of_append
    rcases hc : b.closed
    · right
      have hsame : st.ensureCurrent = st := by
        unfold Path.ensureCurrent
        rw [hl, List.getLast?_concat]
        simp [hc]
      rw [hsame, hback]
      exact hne
    · left
      unfold Path.ensureCurrent
      rw [hl, List.getLast?_concat]
      simp [hc, lastD_concat, SubPath.empty]
  · unfold Path.moveTo Path.startNewPath
    split <;> split <;> rfl

/-- C1, witness: the amended theorem applied to the concrete cached
state `cachedSquare` with the point `(5, 5)`. -/
theorem cache_invalidation_amended_witness :
    (cachedSquare.addPoint ⟨5, 5⟩).triangulation_graph_ = none ∧
      cachedSquare.clear.triangulation_graph_ = none ∧
      (cachedSquare.lineTo ⟨5, 5⟩ false).triangulation_graph_ = none ∧
      cachedSquare.close.triangulation_graph_ = none ∧
      (cachedSquare.setFillRule FillRule.NonZero).triangulation_graph_ =
        cachedSquare.triangulation_graph_ ∧
      (cachedSquare.moveTo ⟨5, 5⟩ false).triangulation_graph_ =
        cachedSquare.triangulation_graph_ := by
  obtain ⟨h1, h2, h3, h4, h5, h6⟩ :=
    cache_invalidation_amended cachedSquare ⟨5, 5⟩ FillRule.NonZero false
  have hside : (cachedSquare.ensureCurrent.paths_.getLastD SubPath.empty).points = [] ∨
      (⟨5, 5⟩ : Point) ≠
        (cachedSquare.ensureCurrent.paths_.getLastD SubPath.empty).points.getLastD ⟨0, 0⟩ := by
    right
    simp [Path.ensureCurrent, cachedSquare, Path.init, SubPath.empty, Point.mk.injEq]
  refine ⟨h1 hside, h2, h3 hside, h4 ?_ ?_ ?_ ?_, h5, h6⟩
  · norm_num [cachedSquare, Path.init, Point.sub_def, Point.squareMagnitude, kCloseEpsilon]
  · simp [cachedSquare, Path.init, Point.mk.injEq]
  · simp [cachedSquare, Path.init]
  · simp [cachedSquare, Path.init]

/-- C5, confirmed.  Copying a `Path` deep-clones its cached
`TriangulationGraph` instead of aliasing it: when the source holds a
cached graph at heap address `i`, the copy holds a handle to a fresh
address `j ≠ i` whose cell has equal contents, the original cell is
untouched, and any subsequent in-place mutation through either handle
(writing an arbitrary new graph `g` at that handle's address) leaves
the graph reachable through the other handle unchanged. -/
theorem path_copy_deep_clones (store : List TriangulationGraph) (p : HeapPath) (i : ℕ)
    (hp : p.triangulation_graph_ = some i) (hi : i < store.length) :
    ∃ j, (HeapPath.copy store p).2.triangulation_graph_ = some j ∧ j ≠ i ∧
      (HeapPath.copy store p).1.getD j default = store.getD i default ∧
      (HeapPath.copy store p).1.getD i default = store.getD i default ∧
      (∀ g, ((HeapPath.copy store p).1.set j g).getD i default = store.getD i default) ∧
      (∀ g, ((HeapPath.copy store p).1.set i g).getD j default = store.getD i default) := by
  refine ⟨store.length, ?_, fun h => absurd (h ▸ hi) (lt_irrefl _), ?_, ?_, ?_, ?_⟩
  · simp [HeapPath.copy, clonePtrCopy, hp]
  · simp [HeapPath.copy, clonePtrCopy, hp, List.getD_eq_getElem?_getD,
      List.getElem?_concat_length]
  · simp [HeapPath.copy, clonePtrCopy, hp, List.getD_eq_getElem?_getD,
      List.getElem?_append_left hi]
  · intro g
    have hne : store.length ≠ i := fun h => absurd (h ▸ hi) (lt_irrefl _)
    simp [HeapPath.copy, clonePtrCopy, hp, List.getD_eq_getElem?_getD,
      List.getElem?_set_ne hne, List.getElem?_append_left hi]
  · intro g
    have hne : i ≠ store.length := fun h => absurd (h ▸ hi) (lt_irrefl _)
    simp [HeapPath.copy, clonePtrCopy, hp, List.getD_eq_getElem?_getD,
      List.getElem?_set_ne hne, List.getElem?_concat_length]

/-- C5, witness: the theorem applied to a one-cell store and a path
whose cache handle points at cell `0`. -/
theorem path_copy_deep_clones_witness :
    ∃ j,
      (HeapPath.copy [sampleGraph] ⟨[], some 0, FillRule.EvenOdd⟩).2.triangulation_graph_ =
        some j ∧ j ≠ 0 ∧
      (HeapPath.copy [sampleGraph] ⟨[], some 0, FillRule.EvenOdd⟩).1.getD j default =
        [sampleGraph].getD 0 default ∧
      (HeapPath.copy [sampleGraph] ⟨[], some 0, FillRule.EvenOdd⟩).1.getD 0 default =
        [sampleGraph].getD 0 default ∧
      (∀ g, ((HeapPath.copy [sampleGraph] ⟨[], some 0, FillRule.EvenOdd⟩).1.set j g).getD 0
          default = [sampleGraph].getD 0 default) ∧
      (∀ g, ((HeapPath.copy [sampleGraph] ⟨[], some 0, FillRule.EvenOdd⟩).1.set 0 g).getD j
          default = [sampleGraph].getD 0 default) :=
  path_copy_deep_clones [sampleGraph] ⟨[], some 0, FillRule.EvenOdd⟩ 0 rfl (by decide)

theorem recurseBezierEmit_ends (m : Matrix) (tol : ℚ) :
    ∀ (fuel : ℕ) (start c1 c2 toP : Point) (l : List Point),
      recurseBezierEmit m tol fuel start c1 c2 toP = some l →
      l ≠ [] ∧ l.getLast? = some toP := by
  intro fuel
  induction fuel with
  | zero =>
    intro _ _ _ _ _ h
    exact absurd h (by simp [recurseBezierEmit])
  | succ n ih =>
    intro start c1 c2 toP l h
    simp only [recurseBezierEmit] at h
    split_ifs at h with hcond
    · injection h with h
      subst h
      exact ⟨by simp, by simp⟩
    · rw [Option.bind_eq_some] at h
      obtain ⟨left, hA, h⟩ := h
      rw [Option.map_eq_some'] at h
      obtain ⟨right, hB, rfl⟩ := h
      obtain ⟨hne, hlast⟩ := ih _ _ _ _ _ hB
      refine ⟨fun hnil => hne (List.append_eq_nil.mp hnil).2, ?_⟩
      rw [List.getLast?_append_of_ne_nil _ hne]
      exact hlast

/-- C6, confirmed.  `recurseBezierTo(from, control1, control2, to)`
emits exactly the endpoint `to` — one `addPoint(to)` call — when the
resolution-matrix-transformed perpendicular deltas of both control
points from the chord `from`–`to` are within `errorTolerance` (squared
comparison, as in the source); otherwise it splits the cubic at the de
Casteljau midpoint construction and recurses on the two halves; and
every terminating emission is a non-empty polyline ending at `to`. -/
theorem recurseBezier_spec (m : Matrix) (tol : ℚ) (fuel : ℕ) (start c1 c2 toP : Point) :
    ((m.apply (deltaFromLine c1 start toP)).squareMagnitude ≤ tol * tol ∧
        (m.apply (deltaFromLine c2 start toP)).squareMagnitude ≤ tol * tol →
      recurseBezierEmit m tol (fuel + 1) start c1 c2 toP = some [toP]) ∧
      (¬((m.apply (deltaFromLine c1 start toP)).squareMagnitude ≤ tol * tol ∧
          (m.apply (deltaFromLine c2 start toP)).squareMagnitude ≤ tol * tol) →
        recurseBezierEmit m tol (fuel + 1) start c1 c2 toP =
          (let mid1 := (1 / 2 : ℚ) • (start + c1)
           let mid2 := (1 / 2 : ℚ) • (c1 + c2)
           let mid3 := (1 / 2 : ℚ) • (c2 + toP)
           let midmid1 := (1 / 2 : ℚ) • (mid1 + mid2)
           let midmid2 := (1 / 2 : ℚ) • (mid2 + mid3)
           let break_point := (1 / 2 : ℚ) • (midmid1 + midmid2)
           (recurseBezierEmit m tol fuel start mid1 midmid1 break_point).bind fun left =>
             (recurseBezierEmit m tol fuel break_point midmid2 mid3 toP).map
               fun right => left ++ right)) ∧
      (∀ l, recurseBezierEmit m tol fuel start c1 c2 toP = some l →
        l ≠ [] ∧ l.getLast? = some toP) := by
  refine ⟨?_, ?_, fun l h => recurseBezierEmit_ends m tol fuel start c1 c2 toP l h⟩
  · intro hcond
    simp only [recurseBezierEmit]
    rw [if_pos hcond]
  · intro hcond
    simp only [recurseBezierEmit]
    rw [if_neg hcond]

/-- C6, witness: the theorem applied to the degenerate cubic whose
control points lie on the chord, with the identity resolution matrix
and tolerance `1/10`. -/
theorem recurseBezier_spec_witness :
    ((Matrix.apply ⟨1, 0, 0, 1⟩ (deltaFromLine ⟨0, 0⟩ ⟨0, 0⟩ ⟨0, 0⟩)).squareMagnitude ≤
        (1 / 10 : ℚ) * (1 / 10) ∧
      (Matrix.apply ⟨1, 0, 0, 1⟩ (deltaFromLine ⟨0, 0⟩ ⟨0, 0⟩ ⟨0, 0⟩)).squareMagnitude ≤
        (1 / 10 : ℚ) * (1 / 10)) ∧
      recurseBezierEmit ⟨1, 0, 0, 1⟩ (1 / 10) 1 ⟨0, 0⟩ ⟨0, 0⟩ ⟨0, 0⟩ ⟨0, 0⟩ =
        some [⟨0, 0⟩] ∧
      ([(⟨0, 0⟩ : Point)] ≠ [] ∧ [(⟨0, 0⟩ : Point)].getLast? = some ⟨0, 0⟩) := by
  have hcond : (Matrix.apply ⟨1, 0, 0, 1⟩
        (deltaFromLine ⟨0, 0⟩ ⟨0, 0⟩ ⟨0, 0⟩)).squareMagnitude ≤ (1 / 10 : ℚ) * (1 / 10) ∧
      (Matrix.apply ⟨1, 0, 0, 1⟩
        (deltaFromLine ⟨0, 0⟩ ⟨0, 0⟩ ⟨0, 0⟩)).squareMagnitude ≤ (1 / 10 : ℚ) * (1 / 10) := by
    norm_num [Matrix.apply, deltaFromLine, Point.sub_def, Point.squareMagnitude]
  obtain ⟨h1, -, -⟩ :=
    recurseBezier_spec ⟨1, 0, 0, 1⟩ (1 / 10) 0 ⟨0, 0⟩ ⟨0, 0⟩ ⟨0, 0⟩ ⟨0, 0⟩
  obtain ⟨-, -, h3⟩ :=
    recurseBezier_spec ⟨1, 0, 0, 1⟩ (1 / 10) 1 ⟨0, 0⟩ ⟨0, 0⟩ ⟨0, 0⟩ ⟨0, 0⟩
  exact ⟨hcond, h1 hcond, h3 [⟨0, 0⟩] (h1 hcond)⟩

theorem inv_ensureCurrent {st : Path} (h : st.Inv) : st.ensureCurrent.Inv := by
  intro sp hsp
  cases hb : st.paths_.getLast? with
  | none =>
    simp only [Path.ensureCurrent, hb] at hsp
    rcases List.mem_append.mp hsp with hm | hm
    · exact h sp hm
    · simp only [List.mem_singleton] at hm
      subst hm
      exact subPathInv_empty
  | some b =>
    cases hc : b.closed with
    | true =>
      simp only [Path.ensureCurrent, hb, hc, if_true] at hsp
      rcases List.mem_append.mp hsp with hm | hm
      · exact h sp hm
      · simp only [List.mem_singleton] at hm
        subst hm
        exact subPathInv_empty
    | false =>
      simp [Path.ensureCurrent, hb, hc] at hsp
      exact h sp hsp

theorem inv_addPoint {st : Path} (h : st.Inv) (p : Point) : (st.addPoint p).Inv := by
  have h1 : st.ensureCurrent.Inv := inv_ensureCurrent h
  obtain ⟨b, hgl, hcb, hgd⟩ := ensureCurrent_back st
  simp only [Path.addPoint]
  split
  · exact h1
  · intro sp hsp
    rw [hgd] at hsp
    rcases List.mem_append.mp hsp with hm | hm
    · exact h1 sp (List.dropLast_subset _ hm)
    · simp only [List.mem_singleton] at hm
      subst hm
      have hbInv : b.Inv := h1 b (List.mem_of_mem_getLast? hgl)
      exact ⟨by simp [hbInv.1], fun hcl => absurd hcl (by simp [hcb])⟩

theorem inv_foldl_addPoint {st : Path} (h : st.Inv) (pts : List Point) :
    (pts.foldl Path.addPoint st).Inv := by
  induction pts generalizing st with
  | nil => exact h
  | cons p rest ih => exact ih (inv_addPoint h p)

theorem inv_startNewPath {st : Path} (h : st.Inv) : st.startNewPath.Inv := by
  simp only [Path.startNewPath]
  split
  · intro sp hsp
    rcases List.mem_append.mp hsp with hm | hm
    · exact h sp hm
    · simp only [List.mem_singleton] at hm
      subst hm
      exact subPathInv_empty
  · exact h

theorem inv_mapPoints {st : Path} (h : st.Inv) (f : Point → Point) : (st.mapPoints f).Inv := by
  intro sp hsp
  simp only [Path.mapPoints, List.mem_map] at hsp
  obtain ⟨sp0, hsp0, rfl⟩ := hsp
  obtain ⟨hlen, hcl⟩ := h sp0 hsp0
  refine ⟨by simpa using hlen, fun hc => ?_⟩
  have hco := hcl hc
  cases hp : sp0.points with
  | nil => simp [hp]
  | cons x rest =>
    rw [hp] at hco
    rcases hgl : (x :: rest).getLast? with _ | z
    · simp at hgl
    · have hz : (x :: rest).getLastD ⟨0, 0⟩ = z := lastD_of_getLast? _ hgl
      rw [hz] at hco
      have hmapl : ((x :: rest).map f).getLast? = some (f z) := by
        rw [List.getLast?_map, hgl]
        rfl
      simp only [hp]
      rw [lastD_of_getLast? ⟨0, 0⟩ hmapl]
      simp only [List.map_cons, List.headD_cons]
      exact congrArg f hco

theorem inv_reverse {st : Path} (h : st.Inv) : st.reverse.Inv := by
  intro sp hsp
  simp only [Path.reverse, List.mem_map] at hsp
  obtain ⟨sp0, hsp0, rfl⟩ := hsp
  obtain ⟨hlen, hcl⟩ := h sp0 hsp0
  refine ⟨by simpa using hlen, fun hc => ?_⟩
  have hco := hcl hc
  simp only [List.headD_eq_head?, List.getLastD_eq_getLast?, List.head?_reverse,
    List.getLast?_reverse]
  simp only [List.headD_eq_head?, List.getLastD_eq_getLast?] at hco
  exact hco.symm

theorem addPoint_eq_append {st : Path} {b : SubPath} (p : Point)
    (hgl : st.paths_.getLast? = some b) (hc : b.closed = false)
    (hcond : ¬(b.points ≠ [] ∧ p = b.points.getLastD ⟨0, 0⟩)) :
    st.addPoint p = { st with
      triangulation_graph_ := none
      last_point_ := p
      paths_ := st.paths_.dropLast ++
        [{ b with points := b.points ++ [p], values := b.values ++ [st.current_value_] }] } := by
  have hens : st.ensureCurrent = st := by simp [Path.ensureCurrent, hgl, hc]
  have hgd : st.paths_.getLastD SubPath.empty = b := lastD_of_getLast? _ hgl
  simp only [Path.addPoint, hens, hgd, if_neg hcond]

theorem inv_close_finish {st1 : Path} (h : st1.Inv)
    (hlast : ∀ b2, st1.paths_.getLast? = some b2 →
      b2.points.headD ⟨0, 0⟩ = b2.points.getLastD ⟨0, 0⟩) :
    Path.Inv { st1.ensureCurrent with
      paths_ := st1.ensureCurrent.paths_.dropLast ++
        [{ st1.ensureCurrent.paths_.getLastD SubPath.empty with closed := true }] } := by
  obtain ⟨b2, hgl, hcb, hgd⟩ := ensureCurrent_back st1
  have h1 := inv_ensureCurrent h
  intro sp hsp
  rw [hgd] at hsp
  rcases List.mem_append.mp hsp with hm | hm
  · exact h1 sp (List.dropLast_subset _ hm)
  · simp only [List.mem_singleton] at hm
    subst hm
    refine subPathInv_closed_set (h1 b2 (List.mem_of_mem_getLast? hgl)) ?_
    cases hb : st1.paths_.getLast? with
    | none =>
      have hb2 : b2 = SubPath.empty := by
        have hx := hgl
        simp [Path.ensureCurrent, hb, List.getLast?_concat] at hx
        exact hx.symm
      subst hb2
      rfl
    | some b =>
      cases hc : b.closed with
      | true =>
        have hb2 : b2 = SubPath.empty := by
          have hx := hgl
          simp [Path.ensureCurrent, hb, hc, List.getLast?_concat] at hx
          exact hx.symm
        subst hb2
        rfl
      | false =>
        have hb2 : b = b2 := by
          have hx := hgl
          simp [Path.ensureCurrent, hb, hc] at hx
          exact hx
        exact hb2 ▸ hlast b hb

theorem inv_close {st : Path} (h : st.Inv) : st.close.Inv := by
  cases hgl : st.paths_.getLast? with
  | none =>
    have heq : st.close = st := by simp [Path.close, hgl]
    rw [heq]
    exact h
  | some b =>
    have hl : st.paths_ = st.paths_.dropLast ++ [b] := (getLast?_ne_nil_decomp hgl).symm
    by_cases hpts : b.points = []
    · have heq : st.close = st := by simp [Path.close, hgl, hpts]
      rw [heq]
      exact h
    · rw [close_eq_of_concat st st.paths_.dropLast b hl hpts]
      simp only []
      by_cases hsnap : ((b.points.headD ⟨0, 0⟩ : Point) -
          b.points.getLastD ⟨0, 0⟩).squareMagnitude < kCloseEpsilon
      · rw [if_pos hsnap]
        apply inv_close_finish
        · intro sp hsp
          rcases List.mem_append.mp hsp with hm | hm
          · exact h sp (List.dropLast_subset _ hm)
          · simp only [List.mem_singleton] at hm
            subst hm
            have hbInv := h b (List.mem_of_mem_getLast? hgl)
            refine ⟨?_, fun _ => ?_⟩
            · rw [hbInv.1]
              exact (length_dropLast_concat b.points _ hpts).symm
            · rw [headD_dropLast_concat_headD b.points ⟨0, 0⟩ hpts, lastD_concat]
        · intro b2 hb2
          rw [List.getLast?_concat] at hb2
          injection hb2 with hb2
          subst hb2
          rw [headD_dropLast_concat_headD b.points ⟨0, 0⟩ hpts, lastD_concat]
      · rw [if_neg hsnap]
        have hne : (b.points.headD ⟨0, 0⟩ : Point) ≠ b.points.getLastD ⟨0, 0⟩ := by
          intro heq
          apply hsnap
          rw [heq]
          norm_num [Point.sub_def, Point.squareMagnitude, kCloseEpsilon]
        rw [if_pos hne]
        have hcF : b.closed = false := by
          cases hcb : b.closed with
          | false => rfl
          | true => exact absurd ((h b (List.mem_of_mem_getLast? hgl)).2 hcb) hne
        rw [addPoint_eq_append (b.points.headD ⟨0, 0⟩) hgl hcF fun hx => hne hx.2]
        apply inv_close_finish
        · intro sp hsp
          rcases List.mem_append.mp hsp with hm | hm
          · exact h sp (List.dropLast_subset _ hm)
          · simp only [List.mem_singleton] at hm
            subst hm
            have hbInv := h b (List.mem_of_mem_getLast? hgl)
            refine ⟨by simp [hbInv.1], fun hcl => absurd hcl (by simp [hcF])⟩
        · intro b2 hb2
          rw [List.getLast?_concat] at hb2
          injection hb2 with hb2
          subst hb2
          rw [headD_concat_of_ne_nil b.points _ ⟨0, 0⟩ hpts, lastD_concat]

theorem inv_seed (st : Path) (h : st.Inv) :
    Path.Inv (if (st.ensureCurrent.paths_.getLastD SubPath.empty).points = []
      then st.ensureCurrent.addPoint st.ensureCurrent.last_point_
      else st.ensureCurrent) := by
  split
  · exact inv_addPoint (inv_ensureCurrent h) _
  · exact inv_ensureCurrent h

theorem inv_bezierTo {st : Path} (h : st.Inv) (c1 c2 e : Point) (rel : Bool) (fuel : ℕ)
    {st2 : Path} (hr : st.bezierTo c1 c2 e rel fuel = some st2) : st2.Inv := by
  simp only [Path.bezierTo, Path.recurseBezierTo] at hr
  rw [Option.map_eq_some'] at hr
  obtain ⟨st3, h3, rfl⟩ := hr
  rw [Option.map_eq_some'] at h3
  obtain ⟨pts, hpts, rfl⟩ := h3
  intro sp hsp
  exact inv_foldl_addPoint (inv_seed st h) pts sp hsp

theorem inv_quadraticTo {st : Path} (h : st.Inv) (c e : Point) (rel : Bool) (fuel : ℕ)
    {st2 : Path} (hr : st.quadraticTo c e rel fuel = some st2) : st2.Inv := by
  simp only [Path.quadraticTo, Path.recurseBezierTo] at hr
  rw [Option.map_eq_some'] at hr
  obtain ⟨st3, h3, rfl⟩ := hr
  rw [Option.map_eq_some'] at h3
  obtain ⟨pts, hpts, rfl⟩ := h3
  intro sp hsp
  exact inv_foldl_addPoint (inv_seed st h) pts sp hsp

/-- C8, confirmed.  Every public `Path` edit operation — `moveTo`,
`lineTo`, `quadraticTo`, `bezierTo`, `close`, `reverse` and the
transforms (`scale`, `translate`, `rotate`, `transform`) — preserves
the sub-path invariants: `values.size() == points.size()` for every
sub-path, and a sub-path with `closed = true` has coincident first and
last points. -/
theorem edit_ops_preserve_invariants (st : Path) (h : st.Inv) :
    (∀ p r, (st.moveTo p r).Inv) ∧
      (∀ p r, (st.lineTo p r).Inv) ∧
      (∀ c e r fuel st2, st.quadraticTo c e r fuel = some st2 → st2.Inv) ∧
      (∀ c1 c2 e r fuel st2, st.bezierTo c1 c2 e r fuel = some st2 → st2.Inv) ∧
      st.close.Inv ∧
      st.reverse.Inv ∧
      (∀ q, (st.scale q).Inv) ∧
      (∀ off, (st.translate off).Inv) ∧
      (∀ c s, (st.rotate c s).Inv) ∧
      (∀ t, (st.transformBy t).Inv) := by
  refine ⟨?_, ?_, ?_, ?_, inv_close h, inv_reverse h, fun q => inv_mapPoints h _,
    fun off => inv_mapPoints h _, fun c s => inv_mapPoints h _, fun t => inv_mapPoints h _⟩
  · intro p r
    simp only [Path.moveTo]
    split
    · intro sp hsp
      exact inv_startNewPath h sp hsp
    · exact h
  · intro p r
    intro sp hsp
    simp only [Path.lineTo] at hsp
    exact inv_addPoint (inv_seed st h) _ sp hsp
  · intro c e r fuel st2 hr
    exact inv_quadraticTo h c e r fuel hr
  · intro c1 c2 e r fuel st2 hr
    exact inv_bezierTo h c1 c2 e r fuel hr

/-- C8, witness: the theorem applied to the concrete open-square state
`cachedSquare`, whose single sub-path has three points, three values
and `closed = false`. -/
theorem edit_ops_preserve_invariants_witness :
    Path.Inv cachedSquare ∧
      ((∀ p r, (cachedSquare.moveTo p r).Inv) ∧
        (∀ p r, (cachedSquare.lineTo p r).Inv) ∧
        (∀ c e r fuel st2, cachedSquare.quadraticTo c e r fuel = some st2 → st2.Inv) ∧
        (∀ c1 c2 e r fuel st2, cachedSquare.bezierTo c1 c2 e r fuel = some st2 → st2.Inv) ∧
        cachedSquare.close.Inv ∧
        cachedSquare.reverse.Inv ∧
        (∀ q, (cachedSquare.scale q).Inv) ∧
        (∀ off, (cachedSquare.translate off).Inv) ∧
        (∀ c s, (cachedSquare.rotate c s).Inv) ∧
        (∀ t, (cachedSquare.transformBy t).Inv)) := by
  have hInv : Path.Inv cachedSquare := by
    intro sp hsp
    simp only [cachedSquare, Path.init, List.mem_singleton] at hsp
    subst hsp
    exact ⟨rfl, fun hcl => nomatch hcl⟩
  exact ⟨hInv, edit_ops_preserve_invariants cachedSquare hInv⟩

/-- C2, confirmed.  On a `Path` whose current sub-path is non-empty
(and well formed per the data model's sub-path invariant), `close()`
leaves that sub-path with coincident first and last points and its
closed flag set: when the squared distance between first and last point
is below `1e-6` the last point is snapped onto the first with the point
count unchanged, otherwise (the points differing) a copy of the first
point is appended; on a path with no sub-paths or an empty current
sub-path, `close()` changes nothing. -/
theorem close_spec (st : Path) :
    (st.paths_ = [] → st.close = st) ∧
      ((st.paths_.getLastD SubPath.empty).points = [] → st.close = st) ∧
      (st.paths_ ≠ [] →
        (st.paths_.getLastD SubPath.empty).points ≠ [] →
        ((st.paths_.getLastD SubPath.empty).closed = true →
          (st.paths_.getLastD SubPath.empty).points.headD ⟨0, 0⟩ =
            (st.paths_.getLastD SubPath.empty).points.getLastD ⟨0, 0⟩) →
        ∃ sp, st.close.paths_[st.paths_.length - 1]? = some sp ∧
          sp.points.headD ⟨0, 0⟩ = sp.points.getLastD ⟨0, 0⟩ ∧
          sp.closed = true ∧
          (((st.paths_.getLastD SubPath.empty).points.headD ⟨0, 0⟩ -
                (st.paths_.getLastD SubPath.empty).points.getLastD ⟨0, 0⟩).squareMagnitude <
              kCloseEpsilon →
            sp.points.length = (st.paths_.getLastD SubPath.empty).points.length ∧
              sp.points.getLastD ⟨0, 0⟩ =
                (st.paths_.getLastD SubPath.empty).points.headD ⟨0, 0⟩) ∧
          (¬((st.paths_.getLastD SubPath.empty).points.headD ⟨0, 0⟩ -
                (st.paths_.getLastD SubPath.empty).points.getLastD ⟨0, 0⟩).squareMagnitude <
              kCloseEpsilon →
            sp.points.length = (st.paths_.getLastD SubPath.empty).points.length + 1)) := by
  refine ⟨?_, ?_, ?_⟩
  · intro h
    simp [Path.close, h]
  · intro h
    cases hgl : st.paths_.getLast? with
    | none => simp [Path.close, hgl]
    | some b =>
      have hb : b.points = [] := by
        rw [lastD_of_getLast? SubPath.empty hgl] at h
        exact h
      simp [Path.close, hgl, hb]
  · intro h1 h2 hcl
    obtain hnil | ⟨l, b, hl⟩ := List.eq_nil_or_concat' st.paths_
    · exact absurd hnil h1
    have hgd : st.paths_.getLastD SubPath.empty = b := by
      rw [hl, lastD_concat]
    rw [hgd] at h2 hcl ⊢
    have hlen : st.paths_.length - 1 = l.length := by
      rw [hl]
      simp
    rw [close_eq_of_concat st l b hl h2, hlen]
    simp only []
    by_cases hsnap : ((b.points.headD ⟨0, 0⟩ : Point) -
        b.points.getLastD ⟨0, 0⟩).squareMagnitude < kCloseEpsilon
    · rw [if_pos hsnap]
      cases hc : b.closed with
      | false =>
        refine ⟨⟨b.points.dropLast ++ [b.points.headD ⟨0, 0⟩], b.values, true⟩, ?_, ?_, rfl,
          ?_, ?_⟩
        · simp [Path.ensureCurrent, List.getLast?_concat, hc, lastD_concat,
            List.dropLast_concat, List.getElem?_concat_length]
        · rw [headD_dropLast_concat_headD b.points ⟨0, 0⟩ h2, lastD_concat]
        · intro _
          exact ⟨length_dropLast_concat b.points _ h2, lastD_concat _ _ _⟩
        · intro hcon
          exact absurd hsnap hcon
      | true =>
        refine ⟨⟨b.points.dropLast ++ [b.points.headD ⟨0, 0⟩], b.values, true⟩, ?_, ?_, rfl,
          ?_, ?_⟩
        · simp only [Path.ensureCurrent, List.getLast?_concat, hc, if_true,
            List.dropLast_concat, lastD_concat]
          rw [List.getElem?_append_left
            (by simp : l.length < (l ++ [(⟨b.points.dropLast ++
              [b.points.headD ⟨0, 0⟩], b.values, true⟩ : SubPath)]).length),
            List.getElem?_concat_length]
        · rw [headD_dropLast_concat_headD b.points ⟨0, 0⟩ h2, lastD_concat]
        · intro _
          exact ⟨length_dropLast_concat b.points _ h2, lastD_concat _ _ _⟩
        · intro hcon
          exact absurd hsnap hcon
    · rw [if_neg hsnap]
      have hne : (b.points.headD ⟨0, 0⟩ : Point) ≠ b.points.getLastD ⟨0, 0⟩ := by
        intro heq
        apply hsnap
        rw [heq]
        norm_num [Point.sub_def, Point.squareMagnitude, kCloseEpsilon]
      rw [if_pos hne]
      have hcF : b.closed = false := by
        cases hcb : b.closed with
        | false => rfl
        | true => exact absurd (hcl hcb) hne
      rw [addPoint_eq_append (b.points.headD ⟨0, 0⟩)
        (by rw [hl]; exact List.getLast?_concat l) hcF fun hx => hne hx.2]
      refine ⟨⟨b.points ++ [b.points.headD ⟨0, 0⟩], b.values ++ [st.current_value_], true⟩,
        ?_, ?_, rfl, ?_, ?_⟩
      · simp [hl, Path.ensureCurrent, List.getLast?_concat, hcF, List.dropLast_concat,
          lastD_concat, List.getElem?_concat_length]
      · rw [headD_concat_of_ne_nil b.points _ ⟨0, 0⟩ h2, lastD_concat]
      · intro hcon
        exact absurd hcon hsnap
      · intro _
        simp

/-- C2, witness: the theorem applied to a concrete open sub-path
`(0,0) → (2,0) → (2,2)` whose endpoints are far apart — exercising the
appending branch of the main conjunct. -/
theorem close_spec_witness :
    ∃ sp, closeWitnessPath.close.paths_[closeWitnessPath.paths_.length - 1]? = some sp ∧
      sp.points.headD ⟨0, 0⟩ = sp.points.getLastD ⟨0, 0⟩ ∧
      sp.closed = true ∧
      (((closeWitnessPath.paths_.getLastD SubPath.empty).points.headD ⟨0, 0⟩ -
            (closeWitnessPath.paths_.getLastD SubPath.empty).points.getLastD
              ⟨0, 0⟩).squareMagnitude < kCloseEpsilon →
        sp.points.length = (closeWitnessPath.paths_.getLastD SubPath.empty).points.length ∧
          sp.points.getLastD ⟨0, 0⟩ =
            (closeWitnessPath.paths_.getLastD SubPath.empty).points.headD ⟨0, 0⟩) ∧
      (¬((closeWitnessPath.paths_.getLastD SubPath.empty).points.headD ⟨0, 0⟩ -
            (closeWitnessPath.paths_.getLastD SubPath.empty).points.getLastD
              ⟨0, 0⟩).squareMagnitude < kCloseEpsilon →
        sp.points.length = (closeWitnessPath.paths_.getLastD SubPath.empty).points.length + 1) :=
  (close_spec closeWitnessPath).2.2
    (by simp [closeWitnessPath, Path.init])
    (by simp [closeWitnessPath, Path.init, List.getLastD_eq_getLast?])
    (by simp [closeWitnessPath, Path.init, List.getLastD_eq_getLast?])

end visage
